import Mathlib

/-
  Verification development for the PhoneticHybrid repository.

  The repository ships the frontend, deployment scripts and documentation;
  the pronunciation-analysis engine itself (backend/inference.py,
  backend/main.py) is described by the specification and the in-repo
  documentation (the usage guide, MIGRATION_TO_WHISPER.md,
  AZURE_INTEGRATION_SUMMARY.md) but its code is not present under src/.
  The engine definitions below are therefore modelled from the spec and
  those documents, as marked on each definition.  The word-list module
  (frontend, src/unnamed/part_000) is present in source and is embedded
  directly.

  Numeric values are embedded as rationals (ℚ); strings are embedded as
  lists of characters (`List Char`), so that joining/splitting on spaces
  and map keys are fully explicit.
-/

namespace PH

/-- An IPA phoneme symbol, embedded as its list of characters. -/
abbrev Sym := List Char

/-- Association-list lookup by key (first match wins), as a Python dict /
JS object read does. -/
def lookupA {β : Type} : List (Sym × β) → Sym → Option β
  | [], _ => none
  | (k, v) :: t, k0 => if k = k0 then some v else lookupA t k0

/-- Minimum of a list of rationals, Python `min` style: the head seeds the
fold; the empty list yields 0 (never used on empty input by the engine). -/
def listMin : List ℚ → ℚ
  | [] => 0
  | h :: t => t.foldl min h

/-- Mean of a list of rationals (sum divided by length; 0 on empty input
since division by zero is 0 in ℚ). -/
def meanScore (l : List ℚ) : ℚ := l.sum / (l.length : ℚ)

/-- Insert a key/value pair into an insertion-ordered map (modelled as an
association list): if the key is already present its value is overwritten
in place, otherwise the pair is appended — exactly how a Python dict or a
JS object used for JSON output behaves. -/
def insertOrdered (m : List (Sym × ℚ)) (k : Sym) (v : ℚ) : List (Sym × ℚ) :=
  match m with
  | [] => [(k, v)]
  | (k0, v0) :: t => if k0 = k then (k0, v) :: t else (k0, v0) :: insertOrdered t k v

/-- Build the JSON-facing `segment_scores` map from the per-phoneme score
list by inserting each (symbol, score) pair in phoneme order; a repeated
symbol overwrites the earlier score. -/
def toScoreMap (l : List (Sym × ℚ)) : List (Sym × ℚ) :=
  l.foldl (fun m p => insertOrdered m p.1 p.2) []

/-- The score of the last occurrence of a symbol in the ordered score
list (lookup in the reversed list finds the last matching pair). -/
def lastScore (l : List (Sym × ℚ)) (k : Sym) : Option ℚ := lookupA l.reverse k

/-- Space-join of a phoneme sequence, as `" ".join(...)` does in the
engine when producing `phonemes_target`. -/
def joinSyms (P : List Sym) : List Char := List.intercalate [' '] P

/-- Python `str.split()` on the space character: split on each space and
drop empty fragments. -/
def pySplit (l : List Char) : List Sym :=
  (l.splitOn ' ').filter (fun w => decide (w ≠ []))

/-- Letter grades of the grading scale. -/
inductive Grade
  | A
  | B
  | C
  | D
  | F
deriving DecidableEq

/-- Tag recording which analysis path produced a result. -/
inductive Method
  | whisperHybrid
  | acousticOnly
deriving DecidableEq

/-- A mono PCM waveform: samples plus sample rate. -/
structure Waveform where
  samples : List ℚ
  sampleRate : ℕ
deriving DecidableEq

/-- Modelled from the spec: the fixed-shape acoustic feature summary of
§3/§4.1 (the extractor's code, backend/inference.py, is not under src/).
`rmsMean` holds the mean-square energy (the square of the RMS — a
monotone stand-in, since ℚ has no square root); `pitchDefined` is the
voiced-frames flag of §4.1. -/
structure AcousticFeatures where
  duration : ℚ
  pitchMean : ℚ
  pitchStd : ℚ
  f1 : ℚ
  f2 : ℚ
  f3 : ℚ
  rmsMean : ℚ
  rmsPeak : ℚ
  spectralCentroid : ℚ
  pitchDefined : Bool
deriving DecidableEq

/-- Modelled from the spec: the fixed low default returned when the
measurement a phoneme class requires was not extractable (§4.3
degenerate-feature handling; the exact constant is not in src/). -/
def lowDefaultScore : ℚ := 3/10

/-- Modelled from the spec: the fixed neutral score of the other/unknown
branch ("documented constant, e.g., 0.75", §4.3). -/
def otherScore : ℚ := 3/4

/-- Modelled from the spec: the global acoustic-quality default used when
the phoneme sequence is empty (§4.2 edge case; constant not in src/). -/
def acousticDefault : ℚ := 1/2

/-- Modelled from the spec: squared silence threshold for "RMS below a
small epsilon" (§4.1; constant not in src/). -/
def silenceEpsSq : ℚ := 1/1000000

/-- Modelled from the spec: plosive burst factor — the peak energy must
exceed this multiple of the segment-mean energy (§4.3; not in src/). -/
def burstFactor : ℚ := 3/2

/-- Modelled from the spec: spectral-centroid threshold above which a
fricative's high-frequency energy counts as present (§4.3; not in src/). -/
def fricCentroidMin : ℚ := 3000

/-- Modelled from the spec: spectral-centroid threshold below which a
nasal's low-frequency emphasis counts as present (§4.3; not in src/). -/
def nasalCentroidMax : ℚ := 1500

/-- Modelled from the spec: the fixed per-language table of canonical
vowel formant targets (expected F1, expected F2 in Hz) for Turkish
vowels plus the IPA vowels appearing in the usage guide's examples; the
concrete table in backend/inference.py is not under src/, so typical
Turkish values are used. -/
def vowelTargets : List (Sym × ℚ × ℚ) :=
  [ (['a'], (750, 1350))
  , (['e'], (500, 1800))
  , (['i'], (300, 2250))
  , (['ı'], (400, 1500))
  , (['o'], (500, 900))
  , (['ö'], (450, 1600))
  , (['u'], (350, 800))
  , (['ü'], (300, 1700))
  , (['æ'], (660, 1700))
  , (['ɛ'], (550, 1750))
  , (['ɑ'], (780, 1100)) ]

/-- Plosive consonants (usage guide: p, t, k, b, d, g). -/
def plosives : List Sym := [['p'], ['t'], ['k'], ['b'], ['d'], ['g']]

/-- Fricative consonants (usage guide: f, s, ʃ, v, z, ʒ, h). -/
def fricatives : List Sym := [['f'], ['s'], ['ʃ'], ['v'], ['z'], ['ʒ'], ['h']]

/-- Nasal consonants (usage guide: m, n). -/
def nasals : List Sym := [['m'], ['n']]

/-- Relative error of a measured value against an expected value:
`|actual - expected| / expected`. -/
def relErr (actual expected : ℚ) : ℚ := |actual - expected| / expected

/-- Vowel score, following the usage guide's formula
`score = 1.0 - min(1.0, (f1_error + f2_error) / 2)` with
`error = |actual - expected| / expected`. -/
def vowelScore (eF1 eF2 aF1 aF2 : ℚ) : ℚ :=
  1 - min 1 ((relErr aF1 eF1 + relErr aF2 eF2) / 2)

/-- Modelled from the spec: §4.3 per-phoneme scoring (the scorer's code
is not under src/).  Classification is by symbol lookup: vowels score by
formant distance, consonant classes by their heuristic with a fixed
two-level scale, anything else gets the neutral default; a required
measurement reported as zero (degenerate, §4.1) yields the fixed low
default instead. -/
def scorePhoneme (s : Sym) (f : AcousticFeatures) : ℚ :=
  match lookupA vowelTargets s with
  | some (e1, e2) =>
      if f.f1 = 0 ∨ f.f2 = 0 then lowDefaultScore
      else vowelScore e1 e2 f.f1 f.f2
  | none =>
      if s ∈ plosives then
        if f.rmsPeak = 0 then lowDefaultScore
        else if burstFactor * f.rmsMean ≤ f.rmsPeak then 9/10 else 1/2
      else if s ∈ fricatives then
        if f.spectralCentroid = 0 then lowDefaultScore
        else if fricCentroidMin ≤ f.spectralCentroid then 9/10 else 1/2
      else if s ∈ nasals then
        if f.spectralCentroid = 0 ∨ f.rmsMean = 0 then lowDefaultScore
        else if f.spectralCentroid ≤ nasalCentroidMax then 9/10 else 1/2
      else otherScore

/-- One phoneme-labeled time interval. -/
structure PhonemeSegment where
  sym : Sym
  startT : ℚ
  endT : ℚ
deriving DecidableEq

/-- Modelled from the spec: §4.2 equal-duration segmentation — the total
duration is split into `len(P)` equal contiguous intervals in phoneme
order; the empty sequence yields the empty list. -/
def segment (P : List Sym) (d : ℚ) : List PhonemeSegment :=
  P.enum.map (fun p =>
    ⟨p.2, (p.1 : ℚ) * d / (P.length : ℚ), ((p.1 : ℚ) + 1) * d / (P.length : ℚ)⟩)

/-- Modelled from the spec: the acoustic part of §4.4 aggregation —
`0.7 * mean + 0.3 * min` of the segment scores, falling back to the
global default when there are no phonemes to score. -/
def acousticScore (scores : List ℚ) : ℚ :=
  if scores = [] then acousticDefault
  else 7/10 * meanScore scores + 3/10 * listMin scores

/-- Modelled from the spec: §4.4 final blend — 40% recognition
confidence plus 60% acoustic score when a confidence is available,
acoustic score alone otherwise. -/
def overallScore (scores : List ℚ) (conf : Option ℚ) : ℚ :=
  match conf with
  | some c => 2/5 * c + 3/5 * acousticScore scores
  | none => acousticScore scores

/-- The fixed grading scale of the usage guide: ≥ 0.90 A, 0.80–0.89 B,
0.70–0.79 C, 0.60–0.69 D, below 0.60 F. -/
def gradeOf (o : ℚ) : Grade :=
  if 9/10 ≤ o then Grade.A
  else if 8/10 ≤ o then Grade.B
  else if 7/10 ≤ o then Grade.C
  else if 6/10 ≤ o then Grade.D
  else Grade.F

/-- Sum of squares of a sample list. -/
def sumSq (l : List ℚ) : ℚ := (l.map (fun x => x * x)).sum

/-- Number of sign changes between adjacent samples. -/
def zeroCrossCount (l : List ℚ) : ℕ :=
  ((l.zip l.tail).filter (fun p => decide (p.1 * p.2 < 0))).length

/-- Largest absolute sample value. -/
def maxAbs (l : List ℚ) : ℚ := l.foldl (fun m x => max m |x|) 0

/-- Modelled from the spec: §4.1 feature extraction (backend/inference.py
is not under src/).  Only the properties the spec states are modelled:
extraction fails exactly on malformed input (no samples / zero sample
rate); silent input (mean-square energy below the epsilon) yields
degenerate features — pitch undefined and reported as zero, formants and
energy zero — rather than failing; otherwise simple non-negative
spectral proxies stand in for the librosa/Praat measurements, whose
numeric values no claim depends on. -/
def extract (w : Waveform) : Option AcousticFeatures :=
  if w.samples = [] ∨ w.sampleRate = 0 then none
  else
    let n : ℚ := (w.samples.length : ℚ)
    let dur := n / (w.sampleRate : ℚ)
    let ms := sumSq w.samples / n
    if ms < silenceEpsSq then
      some { duration := dur, pitchMean := 0, pitchStd := 0,
             f1 := 0, f2 := 0, f3 := 0, rmsMean := 0, rmsPeak := 0,
             spectralCentroid := 0, pitchDefined := false }
    else
      let zcr : ℚ := (zeroCrossCount w.samples : ℚ) / n
      let centroid := zcr * (w.sampleRate : ℚ) / 2
      some { duration := dur,
             pitchMean := min 2000 (max 65 centroid), pitchStd := 0,
             f1 := max 1 (centroid / 4), f2 := max 1 centroid,
             f3 := max 1 (centroid * 3 / 2),
             rmsMean := ms, rmsPeak := maxAbs w.samples,
             spectralCentroid := centroid, pitchDefined := true }

/-- Errors that abort an analysis request (§7). -/
inductive AnalysisError
  | phonemizerUnavailable
  | malformedAudio
deriving DecidableEq

/-- The engine's response record (§3/§6).  `segmentScoresList` is the
per-phoneme score list in phoneme order; `segmentScores` is the
JSON-facing map built from it by symbol-keyed insertion. -/
structure AnalysisResult where
  word : List Char
  recognizedText : Option (List Char)
  recognitionConfidence : Option ℚ
  phonemesTarget : List Char
  segmentScoresList : List (Sym × ℚ)
  segmentScores : List (Sym × ℚ)
  features : AcousticFeatures
  overall : ℚ
  grade : Grade
  analysisMethod : Method
deriving DecidableEq

/-- Modelled from the spec: assembly of the response once phonemes and
features are in hand — segment, score each segment, aggregate with the
recognizer confidence when present, grade, and tag the method. -/
def buildResult (P : List Sym) (recOut : Option (List Char × ℚ))
    (f : AcousticFeatures) (word : List Char) : AnalysisResult :=
  let scored := (segment P f.duration).map (fun s => (s.sym, scorePhoneme s.sym f))
  let conf := recOut.map (fun r => r.2)
  let overall := overallScore (scored.map (fun p => p.2)) conf
  { word := word
    recognizedText := recOut.map (fun r => r.1)
    recognitionConfidence := conf
    phonemesTarget := joinSyms P
    segmentScoresList := scored
    segmentScores := toScoreMap scored
    features := f
    overall := overall
    grade := gradeOf overall
    analysisMethod := match recOut with
      | some _ => Method.whisperHybrid
      | none => Method.acousticOnly }

/-- Modelled from the spec: §4.5 orchestrator.  The phonemizer and
recognizer collaborators are passed as their outcomes (`Except`):
phonemizer failure is fatal, malformed audio is fatal, recognizer
failure degrades to acoustic-only. -/
def analyze (phonemizer : Except Unit (List Sym))
    (recognizer : Except Unit (List Char × ℚ))
    (w : Waveform) (word : List Char) : Except AnalysisError AnalysisResult :=
  match phonemizer with
  | Except.error _ => Except.error AnalysisError.phonemizerUnavailable
  | Except.ok P =>
    match extract w with
    | none => Except.error AnalysisError.malformedAudio
    | some f => Except.ok (buildResult P recognizer.toOption f word)

/-- The configured word list, copied verbatim from the word-list module
(src/unnamed/part_000, `turkishWords`). -/
def turkishWords : List String :=
  [ "estetik"
  , "teşhis"
  , "maloklüzyon"
  , "braket"
  , "çapraşıklık"
  , "temporomandibular"
  , "gömük diş"
  , "asimetri"
  , "aparey"
  , "şeffaf braket"
  , "florür"
  , "sefalometri"
  , "ortognatik"
  , "kapanış"
  , "fonksiyonel"
  , "diastema"
  , "distalizasyon"
  , "profil"
  , "frenoktomi"
  , "oklüzyon"
  , "mandibula"
  , "maksilla"
  , "overjet"
  , "pekiştirme"
  , "iskeletsel"
  , "ortodonti"
  , "röntgen"
  , "genişletme"
  , "çene travması"
  , "kondil"
  , "dişlenme"
  , "ankiloz"
  , "mini vida"
  , "diş teli"
  , "zigoma"
  , "splint"
  , "retainer"
  , "şeffaf plak"
  , "konjenital eksiklik"
  , "süpernümere" ]

/-- `getTotalWords` of src/unnamed/part_000: the word-list length. -/
def getTotalWords : ℕ := turkishWords.length

/-- `getWord` of src/unnamed/part_000: JS array indexing returns the
element for an in-range integer index and `undefined` (here `none`)
otherwise, never throwing. -/
def getWord (index : ℤ) : Option String :=
  if 0 ≤ index then turkishWords.get? index.toNat else none

/-- `isValidIndex` of src/unnamed/part_000:
`index >= 0 && index < turkishWords.length`. -/
def isValidIndex (index : ℤ) : Bool :=
  decide (0 ≤ index) && decide (index < (turkishWords.length : ℤ))

/-- A placeholder result used only to read an `Except` off its `ok`
branch in closed witness statements. -/
def junkResult : AnalysisResult :=
  { word := [], recognizedText := none, recognitionConfidence := none,
    phonemesTarget := [], segmentScoresList := [], segmentScores := [],
    features := { duration := 0, pitchMean := 0, pitchStd := 0, f1 := 0,
                  f2 := 0, f3 := 0, rmsMean := 0, rmsPeak := 0,
                  spectralCentroid := 0, pitchDefined := false },
    overall := 0, grade := Grade.F, analysisMethod := Method.acousticOnly }

/-- Read the result out of a completed analysis. -/
def okOr (x : Except AnalysisError AnalysisResult) : AnalysisResult :=
  match x with
  | Except.ok r => r
  | Except.error _ => junkResult

/-- Number of entries of an association list carrying a given key. -/
def keyCount (m : List (Sym × ℚ)) (k : Sym) : ℕ :=
  (m.filter (fun p => decide (p.1 = k))).length

-- Helper lemmas ------------------------------------------------------------

theorem lookupA_mem {β : Type} {m : List (Sym × β)} {k : Sym} {v : β}
    (h : lookupA m k = some v) : (k, v) ∈ m := by
  induction m with
  | nil => simp [lookupA] at h
  | cons a t ih =>
    obtain ⟨k0, v0⟩ := a
    by_cases hk : k0 = k
    · subst hk
      simp [lookupA] at h
      simp [h]
    · simp [lookupA, hk] at h
      exact List.mem_cons_of_mem _ (ih h)

theorem foldl_min_mem (t : List ℚ) (h : ℚ) : t.foldl min h ∈ h :: t := by
  induction t generalizing h with
  | nil => simp
  | cons a t ih =>
    have h1 := ih (min h a)
    simp only [List.foldl_cons]
    rcases List.mem_cons.mp h1 with h2 | h2
    · rcases min_choice h a with hm | hm
      · rw [h2, hm]; exact List.mem_cons_self _ _
      · rw [h2, hm]; exact List.mem_cons_of_mem _ (List.mem_cons_self _ _)
    · exact List.mem_cons_of_mem _ (List.mem_cons_of_mem _ h2)

theorem listMin_mem {l : List ℚ} (h : l ≠ []) : listMin l ∈ l := by
  cases l with
  | nil => exact absurd rfl h
  | cons a t => exact foldl_min_mem t a

theorem sum_bounds {l : List ℚ} (h : ∀ x ∈ l, 0 ≤ x ∧ x ≤ 1) :
    0 ≤ l.sum ∧ l.sum ≤ (l.length : ℚ) := by
  induction l with
  | nil => simp
  | cons a t ih =>
    have ha := h a (List.mem_cons_self _ _)
    have ht := ih (fun x hx => h x (List.mem_cons_of_mem _ hx))
    simp only [List.sum_cons, List.length_cons]
    push_cast
    constructor <;> linarith [ha.1, ha.2, ht.1, ht.2]

theorem meanScore_mem_unit {l : List ℚ} (hne : l ≠ [])
    (h : ∀ x ∈ l, 0 ≤ x ∧ x ≤ 1) : 0 ≤ meanScore l ∧ meanScore l ≤ 1 := by
  have hlen : 0 < (l.length : ℚ) := by
    have := List.length_pos.mpr hne
    exact_mod_cast this
  have hs := sum_bounds h
  unfold meanScore
  constructor
  · exact div_nonneg hs.1 hlen.le
  · rw [div_le_one hlen]
    simpa using hs.2

theorem listMin_mem_unit {l : List ℚ} (hne : l ≠ [])
    (h : ∀ x ∈ l, 0 ≤ x ∧ x ≤ 1) : 0 ≤ listMin l ∧ listMin l ≤ 1 :=
  h _ (listMin_mem hne)

theorem acousticScore_mem_unit {l : List ℚ}
    (h : ∀ x ∈ l, 0 ≤ x ∧ x ≤ 1) : 0 ≤ acousticScore l ∧ acousticScore l ≤ 1 := by
  unfold acousticScore
  by_cases hne : l = []
  · simp [hne, acousticDefault]
    norm_num
  · have hm := meanScore_mem_unit hne h
    have hmin := listMin_mem_unit hne h
    rw [if_neg hne]
    constructor <;> nlinarith [hm.1, hm.2, hmin.1, hmin.2]

theorem overallScore_mem_unit {l : List ℚ} {conf : Option ℚ}
    (h : ∀ x ∈ l, 0 ≤ x ∧ x ≤ 1)
    (hc : ∀ c, conf = some c → 0 ≤ c ∧ c ≤ 1) :
    0 ≤ overallScore l conf ∧ overallScore l conf ≤ 1 := by
  have ha := acousticScore_mem_unit h
  cases conf with
  | none => simpa [overallScore] using ha
  | some c =>
    have hcc := hc c rfl
    simp only [overallScore]
    constructor <;> nlinarith [ha.1, ha.2, hcc.1, hcc.2]

theorem vowelTargets_pos : ∀ p ∈ vowelTargets, 0 < p.2.1 ∧ 0 < p.2.2 := by
  decide

theorem relErr_nonneg {a e : ℚ} (he : 0 < e) : 0 ≤ relErr a e :=
  div_nonneg (abs_nonneg _) he.le

theorem vowelScore_mem_unit {e1 e2 : ℚ} (h1 : 0 < e1) (h2 : 0 < e2)
    (a1 a2 : ℚ) : 0 ≤ vowelScore e1 e2 a1 a2 ∧ vowelScore e1 e2 a1 a2 ≤ 1 := by
  have hx : 0 ≤ (relErr a1 e1 + relErr a2 e2) / 2 := by
    have := relErr_nonneg (a := a1) h1
    have := relErr_nonneg (a := a2) h2
    linarith
  unfold vowelScore
  constructor
  · have : min 1 ((relErr a1 e1 + relErr a2 e2) / 2) ≤ 1 := min_le_left _ _
    linarith
  · have : (0 : ℚ) ≤ min 1 ((relErr a1 e1 + relErr a2 e2) / 2) :=
      le_min (by norm_num) hx
    linarith

theorem scorePhoneme_mem_unit (s : Sym) (f : AcousticFeatures) :
    0 ≤ scorePhoneme s f ∧ scorePhoneme s f ≤ 1 := by
  unfold scorePhoneme
  cases hl : lookupA vowelTargets s with
  | some p =>
    obtain ⟨e1, e2⟩ := p
    have hpos := vowelTargets_pos _ (lookupA_mem hl)
    by_cases hdeg : f.f1 = 0 ∨ f.f2 = 0
    · simp [hdeg, lowDefaultScore]
      norm_num
    · simp only [hdeg, if_false]
      exact vowelScore_mem_unit hpos.1 hpos.2 f.f1 f.f2
  | none =>
    split_ifs <;> simp [lowDefaultScore, otherScore] <;> norm_num

theorem gradeOf_spec (o : ℚ) :
    (gradeOf o = Grade.A ↔ 9/10 ≤ o) ∧
    (gradeOf o = Grade.B ↔ 8/10 ≤ o ∧ o < 9/10) ∧
    (gradeOf o = Grade.C ↔ 7/10 ≤ o ∧ o < 8/10) ∧
    (gradeOf o = Grade.D ↔ 6/10 ≤ o ∧ o < 7/10) ∧
    (gradeOf o = Grade.F ↔ o < 6/10) := by
  unfold gradeOf
  split_ifs with h1 h2 h3 h4
  · refine ⟨⟨fun _ => h1, fun _ => rfl⟩, ?_, ?_, ?_, ?_⟩ <;>
      constructor <;> intro hh <;> exfalso <;>
      first | exact hh | exact Grade.noConfusion hh | linarith [hh.1, hh.2] | linarith [hh]
  · have h1' := not_le.mp h1
    refine ⟨?_, ⟨fun _ => ⟨h2, h1'⟩, fun _ => rfl⟩, ?_, ?_, ?_⟩ <;>
      constructor <;> intro hh <;> exfalso <;>
      first | exact hh | exact Grade.noConfusion hh | linarith [hh.1, hh.2] | linarith [hh]
  · have h1' := not_le.mp h1
    have h2' := not_le.mp h2
    refine ⟨?_, ?_, ⟨fun _ => ⟨h3, h2'⟩, fun _ => rfl⟩, ?_, ?_⟩ <;>
      constructor <;> intro hh <;> exfalso <;>
      first | exact hh | exact Grade.noConfusion hh | linarith [hh.1, hh.2] | linarith [hh]
  · have h1' := not_le.mp h1
    have h2' := not_le.mp h2
    have h3' := not_le.mp h3
    refine ⟨?_, ?_, ?_, ⟨fun _ => ⟨h4, h3'⟩, fun _ => rfl⟩, ?_⟩ <;>
      constructor <;> intro hh <;> exfalso <;>
      first | exact hh | exact Grade.noConfusion hh | linarith [hh.1, hh.2] | linarith [hh]
  · have h1' := not_le.mp h1
    have h2' := not_le.mp h2
    have h3' := not_le.mp h3
    have h4' := not_le.mp h4
    refine ⟨?_, ?_, ?_, ?_, ⟨fun _ => h4', fun _ => rfl⟩⟩ <;>
      constructor <;> intro hh <;> exfalso <;>
      first | exact hh | exact Grade.noConfusion hh | linarith [hh.1, hh.2] | linarith [hh]

theorem gradeOf_F_of_lt {o : ℚ} (h : o < 6/10) : gradeOf o = Grade.F := by
  unfold gradeOf
  split_ifs <;> first | rfl | linarith

/-- First-some choice on options, used to state the foldl-insert lemma. -/
def orO (a b : Option ℚ) : Option ℚ :=
  match a with
  | some v => some v
  | none => b

theorem orO_assoc (a b c : Option ℚ) : orO (orO a b) c = orO a (orO b c) := by
  cases a <;> rfl

theorem lookupA_append (xs ys : List (Sym × ℚ)) (k : Sym) :
    lookupA (xs ++ ys) k = orO (lookupA xs k) (lookupA ys k) := by
  induction xs with
  | nil => rfl
  | cons a t ih =>
    obtain ⟨k0, v0⟩ := a
    by_cases hk : k0 = k <;> simp [lookupA, hk, ih, orO]

theorem lookupA_insertOrdered (m : List (Sym × ℚ)) (k : Sym) (v : ℚ) (k0 : Sym) :
    lookupA (insertOrdered m k v) k0 = if k = k0 then some v else lookupA m k0 := by
  induction m with
  | nil => rfl
  | cons a t ih =>
    obtain ⟨a1, a2⟩ := a
    by_cases hak : a1 = k
    · subst hak
      by_cases hk0 : a1 = k0 <;> simp [insertOrdered, lookupA, hk0]
    · by_cases hk0 : a1 = k0
      · subst hk0
        have hne : ¬ k = a1 := fun h => hak h.symm
        simp [insertOrdered, lookupA, hak, hne]
      · simp [insertOrdered, lookupA, hak, hk0, ih]

theorem mem_keys_insertOrdered (m : List (Sym × ℚ)) (k : Sym) (v : ℚ) (k0 : Sym) :
    k0 ∈ (insertOrdered m k v).map (fun p => p.1) ↔
      k0 ∈ m.map (fun p => p.1) ∨ k0 = k := by
  induction m with
  | nil => simp [insertOrdered, eq_comm]
  | cons a t ih =>
    obtain ⟨a1, a2⟩ := a
    by_cases hak : a1 = k
    · subst hak
      simp only [insertOrdered, eq_self_iff_true, if_true, List.map_cons, List.mem_cons]
      tauto
    · simp only [insertOrdered, hak, if_false, List.map_cons, List.mem_cons, ih]
      tauto

theorem keys_nodup_insertOrdered (m : List (Sym × ℚ)) (k : Sym) (v : ℚ)
    (h : (m.map (fun p => p.1)).Nodup) :
    ((insertOrdered m k v).map (fun p => p.1)).Nodup := by
  induction m with
  | nil => simp [insertOrdered]
  | cons a t ih =>
    obtain ⟨a1, a2⟩ := a
    simp only [List.map_cons, List.nodup_cons] at h
    by_cases hak : a1 = k
    · subst hak
      simpa [insertOrdered, List.nodup_cons] using h
    · simp only [insertOrdered, hak, if_false, List.map_cons, List.nodup_cons]
      refine ⟨?_, ih h.2⟩
      intro hmem
      rcases (mem_keys_insertOrdered t k v a1).mp hmem with hin | heq
      · exact h.1 hin
      · exact hak heq

theorem lookupA_foldl_insert (l m : List (Sym × ℚ)) (k : Sym) :
    lookupA (l.foldl (fun acc p => insertOrdered acc p.1 p.2) m) k
      = orO (lookupA l.reverse k) (lookupA m k) := by
  induction l generalizing m with
  | nil => rfl
  | cons a t ih =>
    obtain ⟨k0, v0⟩ := a
    simp only [List.foldl_cons, List.reverse_cons]
    rw [ih, lookupA_append, orO_assoc]
    congr 1
    rw [lookupA_insertOrdered]
    by_cases hk : k0 = k <;> simp [lookupA, hk, orO]

theorem keys_nodup_foldl_insert (l m : List (Sym × ℚ))
    (h : (m.map (fun p => p.1)).Nodup) :
    ((l.foldl (fun acc p => insertOrdered acc p.1 p.2) m).map (fun p => p.1)).Nodup := by
  induction l generalizing m with
  | nil => exact h
  | cons a t ih =>
    simp only [List.foldl_cons]
    exact ih _ (keys_nodup_insertOrdered m a.1 a.2 h)

theorem lookupA_toScoreMap (l : List (Sym × ℚ)) (k : Sym) :
    lookupA (toScoreMap l) k = lastScore l k := by
  unfold toScoreMap lastScore
  rw [lookupA_foldl_insert]
  cases h : lookupA l.reverse k <;> simp [orO, lookupA]

theorem keys_nodup_toScoreMap (l : List (Sym × ℚ)) :
    ((toScoreMap l).map (fun p => p.1)).Nodup :=
  keys_nodup_foldl_insert l [] (by simp)

theorem filter_eq_single_of_nodup (m : List (Sym × ℚ)) (k : Sym) (v : ℚ)
    (hn : (m.map (fun p => p.1)).Nodup) (hl : lookupA m k = some v) :
    m.filter (fun p => decide (p.1 = k)) = [(k, v)] := by
  induction m with
  | nil => simp [lookupA] at hl
  | cons a t ih =>
    obtain ⟨a1, a2⟩ := a
    simp only [List.map_cons, List.nodup_cons] at hn
    by_cases hak : a1 = k
    · subst hak
      simp only [lookupA, if_pos rfl, if_true, Option.some_inj] at hl
      subst hl
      have ht : t.filter (fun p => decide (p.1 = a1)) = [] := by
        rw [List.filter_eq_nil_iff]
        intro p hp
        simp only [decide_eq_true_eq]
        intro hpk
        exact hn.1 (hpk ▸ List.mem_map_of_mem (fun q => q.1) hp)
      simp [List.filter_cons, ht]
    · simp only [lookupA, hak, if_false] at hl
      simp only [List.filter_cons, decide_eq_true_eq, hak, if_false]
      exact ih hn.2 hl

-- Segmentation lemmas -------------------------------------------------------

theorem segment_length (P : List Sym) (d : ℚ) :
    (PH.segment P d).length = P.length := by
  simp [PH.segment]

theorem segment_get (P : List Sym) (d : ℚ) (i : ℕ) (hp : i < P.length)
    (hs : i < (PH.segment P d).length) :
    (PH.segment P d).get ⟨i, hs⟩ =
      ⟨P.get ⟨i, hp⟩, (i : ℚ) * d / (P.length : ℚ),
        ((i : ℚ) + 1) * d / (P.length : ℚ)⟩ := by
  simp [PH.segment, List.get_eq_getElem, List.getElem_map, List.getElem_enum]

-- Join/split lemmas ---------------------------------------------------------

theorem pySplit_joinSyms (P : List Sym) (hP : ∀ s ∈ P, s ≠ [] ∧ ' ' ∉ s) :
    pySplit (joinSyms P) = P := by
  unfold pySplit joinSyms
  rcases eq_or_ne P [] with rfl | hne
  · rfl
  · rw [List.splitOn_intercalate P ' ' (fun l hl => (hP l hl).2) hne]
    rw [List.filter_eq_self]
    intro s hs
    exact decide_eq_true ((hP s hs).1)

-- Orchestrator unfolding ----------------------------------------------------

theorem analyze_ok (P : List Sym) (rec : Except Unit (List Char × ℚ))
    (w : Waveform) (word : List Char) (f : AcousticFeatures)
    (hx : extract w = some f) :
    analyze (Except.ok P) rec w word = Except.ok (buildResult P rec.toOption f word) := by
  simp [analyze, hx]

theorem analyze_err_of_extract_none (P : List Sym)
    (rec : Except Unit (List Char × ℚ)) (w : Waveform) (word : List Char)
    (hx : extract w = none) :
    analyze (Except.ok P) rec w word = Except.error AnalysisError.malformedAudio := by
  simp [analyze, hx]

theorem buildResult_scores_mem_unit (P : List Sym) (recOut : Option (List Char × ℚ))
    (f : AcousticFeatures) (word : List Char) :
    ∀ x ∈ (buildResult P recOut f word).segmentScoresList.map (fun p => p.2),
      0 ≤ x ∧ x ≤ 1 := by
  intro x hx
  simp only [buildResult, List.map_map, List.mem_map] at hx
  obtain ⟨seg, _, rfl⟩ := hx
  exact scorePhoneme_mem_unit _ f

-- Silence lemmas ------------------------------------------------------------

theorem sumSq_replicate_zero (n : ℕ) : sumSq (List.replicate n (0 : ℚ)) = 0 := by
  simp [sumSq]

/-- The degenerate feature record the extractor reports for silent
input: pitch undefined, formants and energy zero. -/
def silentF (n rate : ℕ) : AcousticFeatures :=
  { duration := (n : ℚ) / (rate : ℚ), pitchMean := 0, pitchStd := 0,
    f1 := 0, f2 := 0, f3 := 0, rmsMean := 0, rmsPeak := 0,
    spectralCentroid := 0, pitchDefined := false }

theorem extract_replicate_zero (n rate : ℕ) (hn : n ≠ 0) (hr : rate ≠ 0) :
    extract ⟨List.replicate n 0, rate⟩ = some (silentF n rate) := by
  unfold silentF
  have hne : (List.replicate n (0 : ℚ)) ≠ [] := by
    simp [hn]
  unfold extract
  rw [if_neg (by push_neg; exact ⟨hne, hr⟩)]
  simp only [sumSq_replicate_zero, List.length_replicate, zero_div]
  rw [if_pos (by norm_num [silenceEpsSq])]

theorem scorePhoneme_silent (s : Sym) (f : AcousticFeatures)
    (hmeas : lookupA vowelTargets s ≠ none ∨ s ∈ plosives ∨ s ∈ fricatives ∨ s ∈ nasals)
    (hf1 : f.f1 = 0) (hpk : f.rmsPeak = 0) (hcen : f.spectralCentroid = 0) :
    scorePhoneme s f = lowDefaultScore := by
  unfold scorePhoneme
  cases hl : lookupA vowelTargets s with
  | some p =>
    obtain ⟨e1, e2⟩ := p
    simp [hf1]
  | none =>
    rcases hmeas with hv | hp | hf | hnn
    · exact absurd hl hv
    · simp [hp, hpk]
    · by_cases hp2 : s ∈ plosives
      · simp [hp2, hpk]
      · simp [hp2, hf, hcen]
    · by_cases hp2 : s ∈ plosives
      · simp [hp2, hpk]
      · by_cases hf2 : s ∈ fricatives
        · simp [hp2, hf2, hcen]
        · simp [hp2, hf2, hnn, hcen]

theorem sum_const {l : List ℚ} {c : ℚ} (h : ∀ x ∈ l, x = c) :
    l.sum = (l.length : ℚ) * c := by
  induction l with
  | nil => simp
  | cons a t ih =>
    have ha := h a (List.mem_cons_self _ _)
    have ht := ih (fun x hx => h x (List.mem_cons_of_mem _ hx))
    simp only [List.sum_cons, List.length_cons]
    push_cast
    rw [ha, ht]
    ring

theorem meanScore_const {l : List ℚ} {c : ℚ} (hne : l ≠ [])
    (h : ∀ x ∈ l, x = c) : meanScore l = c := by
  have hlen : (0 : ℚ) < (l.length : ℚ) := by
    have := List.length_pos.mpr hne
    exact_mod_cast this
  unfold meanScore
  rw [sum_const h, mul_comm, mul_div_assoc, div_self hlen.ne', mul_one]

theorem listMin_const {l : List ℚ} {c : ℚ} (hne : l ≠ [])
    (h : ∀ x ∈ l, x = c) : listMin l = c := by
  have := listMin_mem hne
  exact h _ this

-- Claim theorems ------------------------------------------------------------

/-- C10: In the word-list module, `getWord index` is defined exactly when
`isValidIndex index` holds (0 ≤ index < getTotalWords); every out-of-range
integer index yields `none` (JS `undefined`, never a throw), and
`getTotalWords` equals the configured list's length, 40. -/
theorem C10_word_list_bounds (index : ℤ) :
    ((getWord index).isSome = isValidIndex index) ∧
    (isValidIndex index = false → getWord index = none) ∧
    getTotalWords = 40 := by
  have hlen : turkishWords.length = 40 := by rfl
  refine ⟨?_, ?_, by rfl⟩
  · unfold getWord isValidIndex
    by_cases h0 : 0 ≤ index
    · rw [if_pos h0]
      have hiff : index.toNat < turkishWords.length ↔
          index < (turkishWords.length : ℤ) := by
        rw [hlen]
        exact Int.toNat_lt' (by norm_num)
      by_cases hlt : index < (turkishWords.length : ℤ)
      · have : index.toNat < turkishWords.length := hiff.mpr hlt
        rw [List.get?_eq_get this]
        simp [h0, hlt]
      · have : ¬ index.toNat < turkishWords.length := fun hc => hlt (hiff.mp hc)
        rw [List.get?_eq_none.mpr (not_lt.mp this)]
        simp [h0, hlt]
    · rw [if_neg h0]
      simp [h0]
  · intro hinv
    unfold isValidIndex at hinv
    unfold getWord
    by_cases h0 : 0 ≤ index
    · simp only [h0, decide_True, Bool.true_and, decide_eq_false_iff_not, not_lt] at hinv
      rw [if_pos h0]
      apply List.get?_eq_none.mpr
      rw [hlen] at hinv ⊢
      omega
    · rw [if_neg h0]

/-- C2: For every non-empty list of segment scores and every recognition
confidence c ∈ [0,1], the aggregator's acoustic score is
0.7·mean + 0.3·min of the segment scores and the final overall is the
blend 0.4·c + 0.6·acoustic. -/
theorem C2_aggregation_weights (scores : List ℚ) (c : ℚ)
    (hne : scores ≠ []) (hc0 : 0 ≤ c) (hc1 : c ≤ 1) :
    acousticScore scores
        = 7/10 * (scores.sum / (scores.length : ℚ)) + 3/10 * listMin scores ∧
    overallScore scores (some c)
        = 2/5 * c + 3/5 * (7/10 * (scores.sum / (scores.length : ℚ))
            + 3/10 * listMin scores) := by
  have ha : acousticScore scores
      = 7/10 * (scores.sum / (scores.length : ℚ)) + 3/10 * listMin scores := by
    unfold acousticScore meanScore
    rw [if_neg hne]
  exact ⟨ha, by unfold overallScore; rw [ha]⟩

/-- C2 witness: the aggregation formulas at scores [1/2] and c = 1/2. -/
theorem C2_witness :
    acousticScore [(1 : ℚ)/2]
        = 7/10 * (([(1 : ℚ)/2].sum / (([(1 : ℚ)/2].length : ℕ) : ℚ)))
            + 3/10 * listMin [(1 : ℚ)/2] ∧
    overallScore [(1 : ℚ)/2] (some (1/2))
        = 2/5 * (1/2) + 3/5 * (7/10 * (([(1 : ℚ)/2].sum / (([(1 : ℚ)/2].length : ℕ) : ℚ)))
            + 3/10 * listMin [(1 : ℚ)/2]) :=
  C2_aggregation_weights [(1 : ℚ)/2] (1/2) (by simp) (by norm_num) (by norm_num)

/-- C5: For positive expected formants the vowel score equals
max(0, 1 − (|ΔF1|/F1 + |ΔF2|/F2)/2) and lies in [0,1]; a symbol with no
entry in the formant table (and in no consonant class) falls through to
the other/unknown branch's neutral default. -/
theorem C5_vowel_formula (e1 e2 a1 a2 : ℚ) (s : Sym) (f : AcousticFeatures)
    (h1 : 0 < e1) (h2 : 0 < e2) :
    vowelScore e1 e2 a1 a2
        = max 0 (1 - (|a1 - e1| / e1 + |a2 - e2| / e2) / 2) ∧
    (0 ≤ vowelScore e1 e2 a1 a2 ∧ vowelScore e1 e2 a1 a2 ≤ 1) ∧
    (lookupA vowelTargets s = none → s ∉ plosives → s ∉ fricatives →
      s ∉ nasals → scorePhoneme s f = otherScore) := by
  refine ⟨?_, vowelScore_mem_unit h1 h2 a1 a2, ?_⟩
  · unfold vowelScore relErr
    rcases le_total ((|a1 - e1| / e1 + |a2 - e2| / e2) / 2) 1 with hle | hge
    · rw [min_eq_right hle, max_eq_right (by linarith)]
    · rw [min_eq_left hge, max_eq_left (by linarith)]
      ring
  · intro hv hp hf hn
    simp [scorePhoneme, hv, hp, hf, hn]

/-- C5 witness: the formula at the target itself for the vowel "e"
(500, 1800), and the fallback at the unmodeled symbol "l". -/
theorem C5_witness :
    vowelScore 500 1800 500 1800
        = max 0 (1 - (|(500 : ℚ) - 500| / 500 + |(1800 : ℚ) - 1800| / 1800) / 2) ∧
    (0 ≤ vowelScore 500 1800 500 1800 ∧ vowelScore 500 1800 500 1800 ≤ 1) ∧
    (lookupA vowelTargets ['l'] = none → ['l'] ∉ plosives → ['l'] ∉ fricatives →
      ['l'] ∉ nasals → scorePhoneme ['l'] junkResult.features = otherScore) :=
  C5_vowel_formula 500 1800 500 1800 ['l'] junkResult.features
    (by norm_num) (by norm_num)

/-- C6: The vowel score is monotone in distance from the target: if one
measured formant pair has relative error at least as large as another's
in each formant, its score is no greater. -/
theorem C6_vowel_monotone (e1 e2 a1 a2 b1 b2 : ℚ)
    (h1 : relErr a1 e1 ≤ relErr b1 e1) (h2 : relErr a2 e2 ≤ relErr b2 e2) :
    vowelScore e1 e2 b1 b2 ≤ vowelScore e1 e2 a1 a2 := by
  unfold vowelScore
  have hmono : min 1 ((relErr a1 e1 + relErr a2 e2) / 2)
      ≤ min 1 ((relErr b1 e1 + relErr b2 e2) / 2) := by
    apply min_le_min le_rfl
    linarith
  linarith

/-- C6 witness: moving from the exact target (500, 1800) to (600, 1900)
does not increase the score of the vowel "e". -/
theorem C6_witness : vowelScore 500 1800 600 1900 ≤ vowelScore 500 1800 500 1800 :=
  C6_vowel_monotone 500 1800 500 1800 600 1900
    (by unfold relErr; norm_num) (by unfold relErr; norm_num)

theorem segment_sym_mem {P : List Sym} {d : ℚ} {seg : PhonemeSegment}
    (h : seg ∈ PH.segment P d) : seg.sym ∈ P := by
  simp only [PH.segment, List.mem_map] at h
  obtain ⟨p, hp, rfl⟩ := h
  exact List.getElem?_mem (List.mem_enum_iff_getElem?.mp hp)

/-- C1: For every valid input accepted by analyze — phonemizer succeeded,
audio decodable, recognizer confidence (when present) in [0,1] — the
returned overall satisfies 0 ≤ overall ≤ 1, the grade is computed from
overall by the fixed threshold table, and that table has the exact
boundary behaviour (≥0.90 A, 0.80–0.89 B, 0.70–0.79 C, 0.60–0.69 D,
<0.60 F; in particular 0.80 maps to B, not C). -/
theorem C1_overall_bounds_and_grade (P : List Sym)
    (rec : Except Unit (List Char × ℚ)) (w : Waveform) (word : List Char)
    (res : AnalysisResult)
    (hc : ∀ t c, rec = Except.ok (t, c) → 0 ≤ c ∧ c ≤ 1)
    (h : analyze (Except.ok P) rec w word = Except.ok res) :
    (0 ≤ res.overall ∧ res.overall ≤ 1) ∧
    res.grade = gradeOf res.overall ∧
    (∀ o : ℚ,
      (gradeOf o = Grade.A ↔ 9/10 ≤ o) ∧
      (gradeOf o = Grade.B ↔ 8/10 ≤ o ∧ o < 9/10) ∧
      (gradeOf o = Grade.C ↔ 7/10 ≤ o ∧ o < 8/10) ∧
      (gradeOf o = Grade.D ↔ 6/10 ≤ o ∧ o < 7/10) ∧
      (gradeOf o = Grade.F ↔ o < 6/10)) ∧
    gradeOf (8/10) = Grade.B := by
  cases hx : extract w with
  | none => rw [analyze_err_of_extract_none P rec w word hx] at h; exact absurd h (by simp)
  | some f =>
    rw [analyze_ok P rec w word f hx] at h
    have hres : res = buildResult P rec.toOption f word := by
      injection h with h2
      exact h2.symm
    subst hres
    refine ⟨?_, rfl, gradeOf_spec, by unfold gradeOf; norm_num⟩
    have hscores := buildResult_scores_mem_unit P rec.toOption f word
    have hconf : ∀ c, rec.toOption.map (fun r => r.2) = some c → 0 ≤ c ∧ c ≤ 1 := by
      intro c hcc
      cases rec with
      | error e => simp [Except.toOption] at hcc
      | ok pr =>
        obtain ⟨t0, c0⟩ := pr
        have hce : c0 = c := by simpa [Except.toOption] using hcc
        exact hce ▸ hc t0 c0 rfl
    exact overallScore_mem_unit hscores hconf

/-- The concrete features extracted from the one-sample waveform [1] at
sample rate 1, used by several witnesses. -/
def fOne : AcousticFeatures :=
  { duration := 1, pitchMean := 65, pitchStd := 0, f1 := 1, f2 := 1, f3 := 1,
    rmsMean := 1, rmsPeak := 1, spectralCentroid := 0, pitchDefined := true }

theorem extract_one : extract ⟨[1], 1⟩ = some fOne := by
  simp only [extract]
  norm_num [sumSq, zeroCrossCount, maxAbs, silenceEpsSq, fOne]

/-- C1 witness: a concrete run (word with one vowel phoneme, recognizer
down, one-sample waveform) satisfies the bounds and the table. -/
theorem C1_witness :
    (0 ≤ (buildResult [['a']] none fOne []).overall ∧
      (buildResult [['a']] none fOne []).overall ≤ 1) ∧
    (buildResult [['a']] none fOne []).grade
      = gradeOf (buildResult [['a']] none fOne []).overall ∧
    (∀ o : ℚ,
      (gradeOf o = Grade.A ↔ 9/10 ≤ o) ∧
      (gradeOf o = Grade.B ↔ 8/10 ≤ o ∧ o < 9/10) ∧
      (gradeOf o = Grade.C ↔ 7/10 ≤ o ∧ o < 8/10) ∧
      (gradeOf o = Grade.D ↔ 6/10 ≤ o ∧ o < 7/10) ∧
      (gradeOf o = Grade.F ↔ o < 6/10)) ∧
    gradeOf (8/10) = Grade.B :=
  C1_overall_bounds_and_grade [['a']] (Except.error ()) ⟨[1], 1⟩ []
    (buildResult [['a']] none fOne [])
    (fun t c hcc => nomatch hcc)
    (by rw [analyze_ok [['a']] (Except.error ()) ⟨[1], 1⟩ [] fOne extract_one]; rfl)

/-- C3: When the recognizer is unavailable and the phonemizer succeeded
on decodable audio, analyze still completes: recognition confidence is
null, the method is tagged acoustic-only, and overall equals the
acoustic score of the segment scores alone. -/
theorem C3_recognizer_down (P : List Sym) (w : Waveform) (word : List Char)
    (f : AcousticFeatures) (hx : extract w = some f) :
    ∃ res, analyze (Except.ok P) (Except.error ()) w word = Except.ok res ∧
      res.recognitionConfidence = none ∧
      res.analysisMethod = Method.acousticOnly ∧
      res.overall = acousticScore (res.segmentScoresList.map (fun p => p.2)) :=
  ⟨buildResult P (Except.error () : Except Unit (List Char × ℚ)).toOption f word,
    analyze_ok P (Except.error ()) w word f hx, rfl, rfl, rfl⟩

/-- C3 witness: the acoustic-only completion at a concrete input. -/
theorem C3_witness :
    ∃ res, analyze (Except.ok [['a']]) (Except.error ()) ⟨[1], 1⟩ [] = Except.ok res ∧
      res.recognitionConfidence = none ∧
      res.analysisMethod = Method.acousticOnly ∧
      res.overall = acousticScore (res.segmentScoresList.map (fun p => p.2)) :=
  C3_recognizer_down [['a']] ⟨[1], 1⟩ [] fOne extract_one

/-- C4: For every phoneme sequence and positive total duration, the
segmenter returns exactly one segment per phoneme, labeled in order,
each of equal positive width duration/n, contiguous (each segment ends
where the next starts), together spanning exactly [0, duration]; the
empty sequence yields the empty list. -/
theorem C4_equal_segmentation (P : List Sym) (d : ℚ) (hd : 0 < d) :
    PH.segment ([] : List Sym) d = [] ∧
    (PH.segment P d).length = P.length ∧
    (∀ i (hp : i < P.length) (hs : i < (PH.segment P d).length),
      ((PH.segment P d).get ⟨i, hs⟩).sym = P.get ⟨i, hp⟩ ∧
      ((PH.segment P d).get ⟨i, hs⟩).startT = (i : ℚ) * d / (P.length : ℚ) ∧
      ((PH.segment P d).get ⟨i, hs⟩).endT = ((i : ℚ) + 1) * d / (P.length : ℚ) ∧
      ((PH.segment P d).get ⟨i, hs⟩).endT - ((PH.segment P d).get ⟨i, hs⟩).startT
        = d / (P.length : ℚ)) ∧
    (∀ i (hs1 : i < (PH.segment P d).length) (hs2 : i + 1 < (PH.segment P d).length),
      ((PH.segment P d).get ⟨i, hs1⟩).endT = ((PH.segment P d).get ⟨i + 1, hs2⟩).startT) ∧
    (P ≠ [] →
      0 < d / (P.length : ℚ) ∧
      (∀ h0 : 0 < (PH.segment P d).length, ((PH.segment P d).get ⟨0, h0⟩).startT = 0) ∧
      (∀ hl : P.length - 1 < (PH.segment P d).length,
        ((PH.segment P d).get ⟨P.length - 1, hl⟩).endT = d)) := by
  have hlen := segment_length P d
  refine ⟨rfl, hlen, ?_, ?_, ?_⟩
  · intro i hp hs
    rw [segment_get P d i hp hs]
    refine ⟨rfl, rfl, rfl, ?_⟩
    have : ((i : ℚ) + 1) * d / (P.length : ℚ) - (i : ℚ) * d / (P.length : ℚ)
        = (((i : ℚ) + 1) * d - (i : ℚ) * d) / (P.length : ℚ) := by
      ring
    rw [this]
    congr 1
    ring
  · intro i hs1 hs2
    have hp1 : i < P.length := hlen ▸ hs1
    have hp2 : i + 1 < P.length := hlen ▸ hs2
    rw [segment_get P d i hp1 hs1, segment_get P d (i + 1) hp2 hs2]
    push_cast
    ring_nf
  · intro hne
    have hlp : 0 < P.length := List.length_pos.mpr hne
    have hlq : (0 : ℚ) < (P.length : ℚ) := by exact_mod_cast hlp
    refine ⟨div_pos hd hlq, ?_, ?_⟩
    · intro h0
      rw [segment_get P d 0 hlp h0]
      simp
    · intro hl
      have hp : P.length - 1 < P.length := by omega
      rw [segment_get P d (P.length - 1) hp hl]
      have hcast : ((P.length - 1 : ℕ) : ℚ) + 1 = (P.length : ℚ) := by
        have : (1 : ℕ) ≤ P.length := hlp
        push_cast [Nat.cast_sub this]
        ring
      rw [hcast]
      exact mul_div_cancel_left₀ d hlq.ne'

/-- C4 witness: the segmentation properties at a concrete 2-phoneme
sequence with duration 1. -/
theorem C4_witness :
    PH.segment ([] : List Sym) 1 = [] ∧
    (PH.segment [['a'], ['b']] 1).length = [['a'], ['b']].length ∧
    (∀ i (hp : i < [['a'], ['b']].length)
        (hs : i < (PH.segment [['a'], ['b']] 1).length),
      ((PH.segment [['a'], ['b']] 1).get ⟨i, hs⟩).sym = [['a'], ['b']].get ⟨i, hp⟩ ∧
      ((PH.segment [['a'], ['b']] 1).get ⟨i, hs⟩).startT
        = (i : ℚ) * 1 / (([['a'], ['b']].length : ℕ) : ℚ) ∧
      ((PH.segment [['a'], ['b']] 1).get ⟨i, hs⟩).endT
        = ((i : ℚ) + 1) * 1 / (([['a'], ['b']].length : ℕ) : ℚ) ∧
      ((PH.segment [['a'], ['b']] 1).get ⟨i, hs⟩).endT
          - ((PH.segment [['a'], ['b']] 1).get ⟨i, hs⟩).startT
        = 1 / (([['a'], ['b']].length : ℕ) : ℚ)) ∧
    (∀ i (hs1 : i < (PH.segment [['a'], ['b']] 1).length)
        (hs2 : i + 1 < (PH.segment [['a'], ['b']] 1).length),
      ((PH.segment [['a'], ['b']] 1).get ⟨i, hs1⟩).endT
        = ((PH.segment [['a'], ['b']] 1).get ⟨i + 1, hs2⟩).startT) ∧
    ([['a'], ['b']] ≠ ([] : List Sym) →
      0 < 1 / (([['a'], ['b']].length : ℕ) : ℚ) ∧
      (∀ h0 : 0 < (PH.segment [['a'], ['b']] 1).length,
        ((PH.segment [['a'], ['b']] 1).get ⟨0, h0⟩).startT = 0) ∧
      (∀ hl : [['a'], ['b']].length - 1 < (PH.segment [['a'], ['b']] 1).length,
        ((PH.segment [['a'], ['b']] 1).get
          ⟨[['a'], ['b']].length - 1, hl⟩).endT = 1)) :=
  C4_equal_segmentation [['a'], ['b']] 1 (by norm_num)

/-- C7: Whenever the phonemizer succeeds with well-formed symbols, the
per-phoneme score list of the completed result has exactly one entry per
symbol of `phonemes_target` split on spaces (and that split recovers the
phoneme sequence itself). -/
theorem C7_scores_match_target_split (P : List Sym)
    (rec : Except Unit (List Char × ℚ)) (w : Waveform) (word : List Char)
    (f : AcousticFeatures) (hx : extract w = some f)
    (hP : ∀ s ∈ P, s ≠ [] ∧ ' ' ∉ s) :
    ∃ res, analyze (Except.ok P) rec w word = Except.ok res ∧
      pySplit res.phonemesTarget = P ∧
      res.segmentScoresList.length = (pySplit res.phonemesTarget).length := by
  refine ⟨buildResult P rec.toOption f word, analyze_ok P rec w word f hx, ?_, ?_⟩
  · exact pySplit_joinSyms P hP
  · show ((PH.segment P f.duration).map _).length = (pySplit (joinSyms P)).length
    rw [pySplit_joinSyms P hP, List.length_map, segment_length]

/-- C7 witness: the 7-phoneme sequence of "pencere" yields exactly 7
score entries matching the split of `phonemes_target`. -/
theorem C7_witness :
    ∃ res, analyze
        (Except.ok [['p'], ['e'], ['n'], ['d', '͡', 'ʒ'], ['e'], ['ɾ'], ['e']])
        (Except.ok (['p'], 9/10)) ⟨[1], 1⟩ [] = Except.ok res ∧
      pySplit res.phonemesTarget
        = [['p'], ['e'], ['n'], ['d', '͡', 'ʒ'], ['e'], ['ɾ'], ['e']] ∧
      res.segmentScoresList.length = (pySplit res.phonemesTarget).length :=
  C7_scores_match_target_split
    [['p'], ['e'], ['n'], ['d', '͡', 'ʒ'], ['e'], ['ɾ'], ['e']]
    (Except.ok (['p'], 9/10)) ⟨[1], 1⟩ [] fOne extract_one (by decide)

/-- C8: If a symbol occurs more than once in the ordered score list, the
JSON-facing map keeps exactly one entry for it, holding the score of the
last occurrence. -/
theorem C8_map_collapses_to_last (l : List (Sym × ℚ)) (k : Sym) (v : ℚ)
    (hdup : 2 ≤ keyCount l k) (hv : lastScore l k = some v) :
    (toScoreMap l).filter (fun p => decide (p.1 = k)) = [(k, v)] ∧
    keyCount (toScoreMap l) k = 1 := by
  have hlook : lookupA (toScoreMap l) k = some v := by
    rw [lookupA_toScoreMap]
    exact hv
  have hfil := filter_eq_single_of_nodup (toScoreMap l) k v
    (keys_nodup_toScoreMap l) hlook
  refine ⟨hfil, ?_⟩
  unfold keyCount
  rw [hfil]
  rfl

/-- Overall blend when every segment score is the fixed low default and
the confidence, if any, lies in [0,1]: strictly below the F threshold. -/
theorem overall_of_const_low {S : List ℚ} {conf : Option ℚ}
    (hneS : S ≠ []) (hall : ∀ x ∈ S, x = lowDefaultScore)
    (hc : ∀ c, conf = some c → 0 ≤ c ∧ c ≤ 1) :
    overallScore S conf < 6/10 := by
  have hmean := meanScore_const hneS hall
  have hminc := listMin_const hneS hall
  have hac : acousticScore S = lowDefaultScore := by
    unfold acousticScore
    rw [if_neg hneS, hmean, hminc]
    unfold lowDefaultScore
    norm_num
  cases conf with
  | none =>
    unfold overallScore
    rw [hac]
    unfold lowDefaultScore
    norm_num
  | some c =>
    have hb := hc c rfl
    unfold overallScore
    rw [hac]
    unfold lowDefaultScore
    linarith [hb.1, hb.2]

/-- C9 (amended): an all-zero waveform of nonzero length completes the
pipeline with no error and degenerate features (pitch undefined,
formants zero); every phoneme that carries a measurable requirement
scores the fixed low default, so when all target phonemes are of the
measurable classes the overall lands strictly below 0.6, in the minimum
band F — for any recognizer outcome with confidence in [0,1]. -/
theorem C9_silence_completes_low (n rate : ℕ) (hn : n ≠ 0) (hr : rate ≠ 0)
    (P : List Sym) (hPne : P ≠ [])
    (hmeas : ∀ s ∈ P, lookupA vowelTargets s ≠ none ∨
      s ∈ plosives ∨ s ∈ fricatives ∨ s ∈ nasals)
    (rec : Except Unit (List Char × ℚ))
    (hc : ∀ t c, rec = Except.ok (t, c) → 0 ≤ c ∧ c ≤ 1)
    (word : List Char) :
    ∃ res,
      analyze (Except.ok P) rec ⟨List.replicate n 0, rate⟩ word = Except.ok res ∧
      res.features.pitchDefined = false ∧
      res.features.f1 = 0 ∧ res.features.f2 = 0 ∧ res.features.f3 = 0 ∧
      res.overall < 6/10 ∧ res.grade = Grade.F := by
  have hconf2 : ∀ c, rec.toOption.map (fun r => r.2) = some c → 0 ≤ c ∧ c ≤ 1 := by
    intro c hcc
    cases rec with
    | error e => simp [Except.toOption] at hcc
    | ok pr =>
      obtain ⟨t0, c0⟩ := pr
      have hce : c0 = c := by simpa [Except.toOption] using hcc
      exact hce ▸ hc t0 c0 rfl
  have hall : ∀ x ∈ ((PH.segment P (silentF n rate).duration).map
      (fun s => (s.sym, scorePhoneme s.sym (silentF n rate)))).map (fun p => p.2),
      x = lowDefaultScore := by
    intro x hx
    simp only [List.map_map, List.mem_map, Function.comp] at hx
    obtain ⟨seg, hseg, rfl⟩ := hx
    exact scorePhoneme_silent seg.sym (silentF n rate)
      (hmeas seg.sym (segment_sym_mem hseg)) rfl rfl rfl
  have hneS : ((PH.segment P (silentF n rate).duration).map
      (fun s => (s.sym, scorePhoneme s.sym (silentF n rate)))).map (fun p => p.2) ≠ [] := by
    intro hemp
    apply hPne
    have hlen := congrArg List.length hemp
    simp only [List.length_map, segment_length, List.length_nil] at hlen
    exact List.length_eq_zero.mp hlen
  have hov : (buildResult P rec.toOption (silentF n rate) word).overall < 6/10 :=
    overall_of_const_low hneS hall hconf2
  refine ⟨buildResult P rec.toOption (silentF n rate) word, ?_, rfl, rfl, rfl, rfl, hov, ?_⟩
  · rw [analyze_ok P rec ⟨List.replicate n 0, rate⟩ word (silentF n rate)
      (extract_replicate_zero n rate hn hr)]
  · show gradeOf (buildResult P rec.toOption (silentF n rate) word).overall = Grade.F
    exact gradeOf_F_of_lt hov

/-- C9 witness: the amended statement at n = 10 zero samples, 16 kHz,
the one-vowel sequence [a], recognizer down. -/
theorem C9_witness :
    ∃ res,
      analyze (Except.ok [['a']]) (Except.error ())
        ⟨List.replicate 10 0, 16000⟩ [] = Except.ok res ∧
      res.features.pitchDefined = false ∧
      res.features.f1 = 0 ∧ res.features.f2 = 0 ∧ res.features.f3 = 0 ∧
      res.overall < 6/10 ∧ res.grade = Grade.F :=
  C9_silence_completes_low 10 16000 (by decide) (by decide) [['a']] (by decide)
    (by decide) (Except.error ()) (fun t c hcc => nomatch hcc) []

/-- C9 counterexample: on pure silence with a one-phoneme target of the
unmodeled class ("l"), the engine completes with degenerate features yet
overall = 0.75 and grade C — far from the minimum grade band F, so the
claim as stated is false. -/
theorem C9_counterexample :
    ∃ res,
      analyze (Except.ok [['l']]) (Except.error ())
        ⟨List.replicate 10 0, 16000⟩ ['l'] = Except.ok res ∧
      res.features.pitchDefined = false ∧ res.features.f1 = 0 ∧
      res.overall = 3/4 ∧ res.grade = Grade.C := by
  have hov : (buildResult [['l']] none (silentF 10 16000) ['l']).overall = 3/4 := by
    show overallScore ([(['l'], otherScore)].map (fun p => p.2)) none = 3/4
    simp [overallScore, acousticScore, meanScore, listMin, otherScore]
    norm_num
  refine ⟨buildResult [['l']] none (silentF 10 16000) ['l'], ?_, rfl, rfl, hov, ?_⟩
  · rw [analyze_ok [['l']] (Except.error ()) ⟨List.replicate 10 0, 16000⟩ ['l']
      (silentF 10 16000) (extract_replicate_zero 10 16000 (by decide) (by decide))]
    rfl
  · show gradeOf (buildResult [['l']] none (silentF 10 16000) ['l']).overall = Grade.C
    rw [hov]
    unfold gradeOf
    norm_num

/-- C8 witness: two "e" entries collapse to one map entry holding the
second score. -/
theorem C8_witness :
    (toScoreMap [(['e'], 17/20), (['e'], 4/5)]).filter
        (fun p => decide (p.1 = ['e'])) = [(['e'], 4/5)] ∧
    keyCount (toScoreMap [(['e'], 17/20), (['e'], 4/5)]) ['e'] = 1 :=
  C8_map_collapses_to_last [(['e'], 17/20), (['e'], 4/5)] ['e'] (4/5)
    (by decide) rfl

end PH
